import Mathlib

/-!
Verification of the dependency-graph engine of `src/js/techtree-render.js`
(class `TechtreeRenderer`): layer assignment, unlock evaluation, completion
toggling with cascading revocation, progress ratio, and the per-layer
barycenter layout.

Modelling conventions:
* JS node objects become the structure `Node`; the engine-computed `layer`
  field is part of the structure (default 0, i.e. "not yet set") and is
  overwritten by `computeLayers`, mirroring the in-place mutation.
* The JS `Set` `this.completed` becomes a `List String` with `Set`-style
  `add` (append if absent) and `delete` (filter out).
* JS recursion (which can only end by returning or by blowing the call
  stack) is modelled with an explicit fuel parameter; running out of fuel
  is the `stackOverflow` error.  Reading a property of `undefined`
  (`this.nodeMap[id].prereqs` for an unknown id) is the `typeError` error.
* JS floating-point division is total but produces the non-finite values
  `NaN`/`Infinity` on a zero divisor; `jsDiv` returns `none` in exactly
  that case and the finite rational quotient otherwise.
* Node positions (`n.x`, `n.y`) live in an association list keyed by node
  id; `x` is always a finite rational, `y` may be `none` (the `NaN`
  produced by an unguarded `L / maxLayer` when `maxLayer = 0`).
-/

namespace Techtree

/-- A tech-tree node as consumed and mutated by `TechtreeRenderer`:
`id`, display `label`, `type` (`"required" | "optional" | "goal"`),
`prereqs` (ids of dependencies, empty when the JS field is absent), and the
engine-computed `layer` field (JS leaves it `undefined` until
`computeLayers` runs; we default it to `0`). -/
structure Node where
  id : String
  label : String := ""
  type : String := "required"
  prereqs : List String := []
  layer : Nat := 0
deriving DecidableEq, Repr

/-- First-match association-list lookup, the behaviour of reading
`obj[key]` from a JS object modelled as a list of key/value pairs whose
head is the most recent write. -/
def alookup {α : Type} (k : String) : List (String × α) → Option α
  | [] => none
  | (k', v) :: rest => if k' = k then some v else alookup k rest

/-- The id → node mapping built in the constructor by
`this.nodes.forEach(n => this.nodeMap[n.id] = n)`: a later node with the
same id silently overwrites an earlier one (last write wins). -/
def nodeMap (nodes : List Node) (i : String) : Option Node :=
  nodes.foldl (fun acc n => if n.id = i then some n else acc) none

/-- The two ways the engine's JS code can abort: reading a property of
`undefined` (dangling prereq reference) and exhausting the call stack
(unbounded recursion on a cyclic graph). -/
inductive JsErr where
  | typeError
  | stackOverflow
deriving DecidableEq, Repr

/-- JS `Math.max` over a list of naturals as used on the non-empty list
`node.prereqs.map(p => computeLayer(p) + 1)` (0 for the empty list, which
the code never passes). -/
def maxList (l : List Nat) : Nat := l.foldr max 0

/-- The memoization cache `cache` of `computeLayers`, keyed by node id. -/
def Cache := List (String × Nat)

/-- One step of `node.prereqs.map(p => computeLayer(p) + 1)`: run the
layer computation `f` on every prereq left to right, threading the cache,
and collect the successor values. -/
def prereqVals (f : Cache → String → Except JsErr (Nat × Cache)) :
    Cache → List String → Except JsErr (List Nat × Cache)
  | cache, [] => .ok ([], cache)
  | cache, p :: rest =>
    match f cache p with
    | .error e => .error e
    | .ok (v, c1) =>
      match prereqVals f c1 rest with
      | .error e => .error e
      | .ok (vs, c2) => .ok ((v + 1) :: vs, c2)

/-- The inner `computeLayer` closure of `TechtreeRenderer.computeLayers`:
memoized longest-path depth.  `fuel` models the JS call stack; the code
has no cycle check, so a cyclic graph exhausts any fuel. -/
def computeLayer (nodes : List Node) : Nat → Cache → String → Except JsErr (Nat × Cache)
  | 0, _, _ => .error .stackOverflow
  | fuel + 1, cache, i =>
    match alookup i cache with
    | some v => .ok (v, cache)
    | none =>
      match nodeMap nodes i with
      | none => .error .typeError
      | some node =>
        if node.prereqs = [] then .ok (0, (i, 0) :: cache)
        else
          match prereqVals (computeLayer nodes fuel) cache node.prereqs with
          | .error e => .error e
          | .ok (vs, c') => .ok (maxList vs, (i, maxList vs) :: c')

/-- The loop `this.nodes.forEach(n => n.layer = computeLayer(n.id))`:
set every node's `layer` field, sharing one cache across the pass. -/
def setLayers (f : Cache → String → Except JsErr (Nat × Cache)) :
    List Node → Cache → Except JsErr (List Node)
  | [], _ => .ok []
  | n :: rest, cache =>
    match f cache n.id with
    | .error e => .error e
    | .ok (v, c') =>
      match setLayers f rest c' with
      | .error e => .error e
      | .ok rest' => .ok ({ n with layer := v } :: rest')

/-- The method `TechtreeRenderer.computeLayers`.  A recursion path on an acyclic
graph visits distinct nodes, so depth `nodes.length` reaches every node
and depth `nodes.length + 1` additionally reaches a dangling id one step
beyond; with that fuel the model terminates (and raises the same error)
exactly as the JS does. -/
def computeLayers (nodes : List Node) : Except JsErr (List Node) :=
  setLayers (computeLayer nodes (nodes.length + 1)) nodes []

/-- The method `TechtreeRenderer.isUnlocked`: a node with no prereqs is unlocked,
otherwise every prereq id must be in the completion set. -/
def isUnlocked (c : List String) (node : Node) : Bool :=
  node.prereqs.isEmpty || node.prereqs.all (fun p => c.contains p)

/-- Deletion `this.completed.delete(x)` on the set-as-list. -/
def sDelete (c : List String) (x : String) : List String :=
  c.filter (fun y => y ≠ x)

/-- Addition `this.completed.add(x)` on the set-as-list (a JS `Set` ignores a
duplicate add). -/
def sAdd (c : List String) (x : String) : List String :=
  if x ∈ c then c else c ++ [x]

/-- The `this.nodes.forEach` body of `cascadeRemove`: for every node `n`
with `i` among its prereqs that is currently completed, delete `n.id` and
recurse (`step`) from `n.id`, threading the shrinking completion set. -/
def cascadeScan (step : String → List String → List String) (i : String) :
    List Node → List String → List String
  | [], c => c
  | n :: rest, c =>
    if i ∈ n.prereqs ∧ n.id ∈ c then
      cascadeScan step i rest (step n.id (sDelete c n.id))
    else
      cascadeScan step i rest c

/-- The recursive `cascadeRemove` closure of `TechtreeRenderer.toggle`.
Every recursive call strictly shrinks the completion set, so fuel
`c.length` always suffices (see `toggleCompleted`). -/
def cascadeRemove (nodes : List Node) : Nat → String → List String → List String
  | 0, _, c => c
  | fuel + 1, i, c => cascadeScan (cascadeRemove nodes fuel) i nodes c

/-- The completion-set effect of `TechtreeRenderer.toggle` (the method
additionally refreshes the progress bar and re-renders, which do not touch
`this.completed`): locked and incomplete is a no-op; completed triggers
cascading revocation of completed dependents and then removes the node;
otherwise the node is added. -/
def toggleCompleted (nodes : List Node) (c : List String) (node : Node) : List String :=
  let done := c.contains node.id
  let unlocked := isUnlocked c node
  if !unlocked && !done then c
  else if done then sDelete (cascadeRemove nodes c.length node.id c) node.id
  else sAdd c node.id

/-- The completion-set effect of `TechtreeRenderer.reset`:
`this.completed.clear()`. -/
def resetCompleted : List String := []

/-- The filter `this.nodes.filter(n => n.type === 'required')` from `updateProgress`. -/
def requiredNodes (nodes : List Node) : List Node :=
  nodes.filter (fun n => n.type = "required")

/-- The count `required.filter(n => this.completed.has(n.id)).length` from
`updateProgress`. -/
def completedRequiredCount (nodes : List Node) (c : List String) : Nat :=
  ((requiredNodes nodes).filter (fun n => c.contains n.id)).length

/-- JS floating-point division restricted to this engine's use sites:
finite quotient as `some`, and `none` for the non-finite `NaN`/`Infinity`
produced by a zero divisor (the engine never guards its divisions). -/
def jsDiv (a b : ℚ) : Option ℚ :=
  if b = 0 then none else some (a / b)

/-- The progress ratio `completedRequired / required.length` computed in
`updateProgress` (the method multiplies it by 100 for the CSS width). -/
def progressRatio (nodes : List Node) (c : List String) : Option ℚ :=
  jsDiv (completedRequiredCount nodes c) ((requiredNodes nodes).length)

/-- Node positions keyed by id: `x` (horizontal centre, always finite) and
`y` (top edge; `none` models the `NaN` of an unguarded `0 / 0`). -/
def PosMap := List (String × (ℚ × Option ℚ))

/-- The read `(this.nodeMap[p].x || 0)` from the barycenter comparator: the stored
x coordinate, or 0 when the node has none yet (also when it is exactly 0,
which coincides). -/
def getX (xs : PosMap) (p : String) : ℚ :=
  ((alookup p xs).map Prod.fst).getD 0

/-- Writing `n.x = ...; n.y = ...` into the position map (most recent
write first, as `alookup` reads). -/
def setPos (xs : PosMap) (i : String) (v : ℚ × Option ℚ) : PosMap :=
  (i, v) :: xs

/-- The barycenter sort key of `render`:
`a.prereqs.reduce((s, p) => s + (this.nodeMap[p].x || 0), 0) / (a.prereqs.length || 1)`. -/
def bary (xs : PosMap) (n : Node) : ℚ :=
  (n.prereqs.foldl (fun s p => s + getX xs p) 0) /
    (if n.prereqs.length = 0 then 1 else (n.prereqs.length : ℚ))

/-- Insertion step of a stable ascending sort by `key`: walk past strictly
smaller keys, insert before the first key that is not smaller, so an
element never jumps over an equal key. -/
def insertB (key : Node → ℚ) (n : Node) : List Node → List Node
  | [] => [n]
  | m :: rest => if key m < key n then m :: insertB key n rest else n :: m :: rest

/-- Stable ascending sort by `key`, the behaviour of
`group.sort((a, b) => keyA - keyB)` under the ECMAScript 2019 stable-sort
guarantee (any two stable ascending sorts agree). -/
def sortB (key : Node → ℚ) : List Node → List Node
  | [] => []
  | n :: rest => insertB key n (sortB key rest)

/-- Layout configuration, the constructor's resolved
`nodeWidth/nodeHeight/nodeGap/layerPadding` (defaults 136/44/30/34). -/
structure Cfg where
  nodeWidth : ℚ := 136
  nodeHeight : ℚ := 44
  nodeGap : ℚ := 30
  layerPadding : ℚ := 34
deriving DecidableEq, Repr

/-- First node's x in a centred layer group:
`(W - totalWidth) / 2 + nodeWidth / 2` with
`totalWidth = count * nodeWidth + (count - 1) * nodeGap`. -/
def startXOf (cfg : Cfg) (W : ℚ) (count : ℚ) : ℚ :=
  (W - (count * cfg.nodeWidth + (count - 1) * cfg.nodeGap)) / 2 + cfg.nodeWidth / 2

/-- The y coordinate of layer `L`:
`layerPadding + (L / maxLayer) * (H - layerPadding * 2)`, `none` (`NaN`)
when `maxLayer = 0` because the division is unguarded. -/
def yOf (cfg : Cfg) (H : ℚ) (maxL L : Nat) : Option ℚ :=
  (jsDiv (L : ℚ) (maxL : ℚ)).map (fun q => cfg.layerPadding + q * (H - cfg.layerPadding * 2))

/-- The `group.forEach((n, i) => { n.x = startX + i * (nodeWidth + nodeGap); n.y = ... })`
loop, writing positions for a layer group left to right. -/
def placeGroup (cfg : Cfg) (startX : ℚ) (y : Option ℚ) :
    List Node → Nat → PosMap → PosMap
  | [], _, xs => xs
  | n :: rest, i, xs =>
    placeGroup cfg startX y rest (i + 1)
      (setPos xs n.id (startX + (i : ℚ) * (cfg.nodeWidth + cfg.nodeGap), y))

/-- The `layers[n.layer]` grouping of `render`: the nodes of layer `L` in
input order (the `forEach` pushes in input order). -/
def groupOf (nodes : List Node) (L : Nat) : List Node :=
  nodes.filter (fun n => n.layer = L)

/-- One iteration of the `for (let L = 0; L <= maxLayer; L++)` loop of
`render`: take the layer's group, barycenter-sort it when `L > 0`, and
write the centred positions. -/
def layoutLayer (cfg : Cfg) (nodes : List Node) (W H : ℚ) (maxL : Nat)
    (xs : PosMap) (L : Nat) : PosMap :=
  let group := groupOf nodes L
  let group := if 0 < L then sortB (bary xs) group else group
  placeGroup cfg (startXOf cfg W (group.length : ℚ)) (yOf cfg H maxL L) group 0 xs

/-- The value `Math.max(...Object.keys(layers).map(Number))` of `render`: the
largest layer value present (0 for the empty node list, where the layout
loop writes nothing either way). -/
def maxLayerOf (nodes : List Node) : Nat :=
  maxList (nodes.map Node.layer)

/-- The first `L` iterations of the layout loop, starting from the
position state `xs0` left by the previous render (empty on the first). -/
def layoutUpTo (cfg : Cfg) (nodes : List Node) (W H : ℚ) (xs0 : PosMap) (L : Nat) : PosMap :=
  (List.range L).foldl (layoutLayer cfg nodes W H (maxLayerOf nodes)) xs0

/-- The full position-assignment pass of `TechtreeRenderer.render` for a
viewport `W × H` (the subsequent SVG drawing only reads these values). -/
def layoutPass (cfg : Cfg) (nodes : List Node) (W H : ℚ) (xs0 : PosMap) : PosMap :=
  layoutUpTo cfg nodes W H xs0 (maxLayerOf nodes + 1)

/-- The engine state right after the constructor: layered nodes and the
empty completion set (the constructor performs no input validation at
all — `this.nodeMap` is built by silent overwrite and `computeLayers` is
called directly). -/
structure EngineState where
  nodesL : List Node
  completed : List String
deriving DecidableEq, Repr

/-- The constructor of `TechtreeRenderer` up to its first `render()` call:
build the node map, compute layers, start with nothing completed.  It can
only fail the way the JS fails (TypeError on a dangling prereq, stack
overflow on a cycle); there is no `MalformedGraphError` anywhere in the
code. -/
def initEngine (nodes : List Node) : Except JsErr EngineState :=
  match computeLayers nodes with
  | .error e => .error e
  | .ok nodesL => .ok ⟨nodesL, []⟩

/-! ## Specification-side predicates -/

/-- Node ids are pairwise distinct (spec §3: "node ids are unique"). -/
def NodupIds (nodes : List Node) : Prop := (nodes.map Node.id).Nodup

/-- Every id referenced in some prereqs list exists in the sequence
(spec §3). -/
def ClosedGraph (nodes : List Node) : Prop :=
  ∀ n ∈ nodes, ∀ p ∈ n.prereqs, ∃ m ∈ nodes, m.id = p

/-- A ranking function witnessing acyclicity of the prereqs relation:
every edge from a node to one of its prereqs strictly decreases the rank. -/
def Ranked (nodes : List Node) (r : String → Nat) : Prop :=
  ∀ n ∈ nodes, ∀ p ∈ n.prereqs, r p < r n.id

/-- The ranking stays below the node count (as the longest-path rank of
any finite DAG does); it bounds the recursion depth of `computeLayer`. -/
def RankSmall (nodes : List Node) (r : String → Nat) : Prop :=
  ∀ n ∈ nodes, r n.id < nodes.length

/-- The completion invariant of spec §3: every completed node has all its
prereqs completed. -/
def Inv (nodes : List Node) (c : List String) : Prop :=
  ∀ x ∈ c, ∀ n ∈ nodes, n.id = x → ∀ p ∈ n.prereqs, p ∈ c

/-- Derivations of the longest-path layer value of spec §4.2:
`layer(n) = 0` when `n.prereqs` is empty, else `max(layer(p) + 1)` over
the prereqs, exactly as the code computes it.  A node whose layer depends
transitively on itself has no derivation. -/
inductive LayerIs (nodes : List Node) : String → Nat → Prop where
  | base : ∀ i n, nodeMap nodes i = some n → n.prereqs = [] → LayerIs nodes i 0
  | step : ∀ (i : String) (n : Node) (f : String → Nat),
      nodeMap nodes i = some n → n.prereqs ≠ [] →
      (∀ p ∈ n.prereqs, LayerIs nodes p (f p)) →
      LayerIs nodes i (maxList (n.prereqs.map (fun p => f p + 1)))

/-- The downstream closure through the prereqs-reversed edges: ids
reachable from `root` by repeatedly stepping to a node that lists the
current id among its prereqs (spec §4.3). -/
inductive Downstream (nodes : List Node) (root : String) : String → Prop where
  | refl : Downstream nodes root root
  | step : ∀ {y} (m : Node), Downstream nodes root y → m ∈ nodes → y ∈ m.prereqs →
      Downstream nodes root m.id

/-- Every prereq edge points to a strictly smaller layer; this is what
the barycenter pass relies on when it reads prereq positions of already
processed layers. -/
def StrictLayers (nodes : List Node) : Prop :=
  ∀ n ∈ nodes, ∀ p ∈ n.prereqs, ∀ m ∈ nodes, m.id = p → m.layer < n.layer

/-! ## Basic lemmas about the small helpers -/

theorem contains_eq_true {c : List String} {x : String} :
    c.contains x = true ↔ x ∈ c := by simp

theorem mem_sDelete {c : List String} {x y : String} :
    x ∈ sDelete c y ↔ x ∈ c ∧ x ≠ y := by
  simp [sDelete, List.mem_filter]

theorem sDelete_subset {c : List String} {y : String} : sDelete c y ⊆ c :=
  fun _ hx => (mem_sDelete.mp hx).1

theorem sDelete_length_lt {c : List String} {y : String} (h : y ∈ c) :
    (sDelete c y).length < c.length := by
  rw [sDelete, List.length_filter_lt_length_iff_exists]
  exact ⟨y, h, by simp⟩

theorem sDelete_of_not_mem {c : List String} {y : String} (h : y ∉ c) :
    sDelete c y = c := by
  apply List.filter_eq_self.mpr
  intro a ha
  simp only [ne_eq, decide_eq_true_eq]
  rintro rfl
  exact h ha

theorem mem_sAdd {c : List String} {x y : String} :
    x ∈ sAdd c y ↔ x ∈ c ∨ x = y := by
  by_cases h : y ∈ c
  · simp only [sAdd, if_pos h]
    constructor
    · exact Or.inl
    · rintro (hx | rfl) <;> [exact hx; exact h]
  · simp [sAdd, if_neg h]

theorem sAdd_of_not_mem {c : List String} {y : String} (h : y ∉ c) :
    sAdd c y = c ++ [y] := by simp [sAdd, if_neg h]

theorem maxList_cons (a : Nat) (l : List Nat) :
    maxList (a :: l) = max a (maxList l) := rfl

theorem maxList_ge {l : List Nat} {v : Nat} (h : v ∈ l) : v ≤ maxList l := by
  induction l with
  | nil => cases h
  | cons a rest ih =>
    rcases List.mem_cons.mp h with rfl | h
    · rw [maxList_cons]; omega
    · have := ih h
      rw [maxList_cons]; omega

theorem maxList_map_succ {l : List Nat} (h : l ≠ []) :
    maxList (l.map (· + 1)) = maxList l + 1 := by
  induction l with
  | nil => exact absurd rfl h
  | cons a rest ih =>
    cases rest with
    | nil => simp [maxList]
    | cons b rest' =>
      have := ih (by simp)
      simp only [List.map_cons, maxList_cons] at this ⊢
      omega

theorem nodeMap_go {nodes : List Node} {i : String} :
    ∀ {acc : Option Node} {n : Node},
      nodes.foldl (fun acc n => if n.id = i then some n else acc) acc = some n →
      (n ∈ nodes ∧ n.id = i) ∨ acc = some n := by
  induction nodes with
  | nil => intro acc n h; exact Or.inr h
  | cons m rest ih =>
    intro acc n h
    simp only [List.foldl] at h
    rcases ih h with ⟨hmem, hid⟩ | hacc
    · exact Or.inl ⟨List.mem_cons_of_mem _ hmem, hid⟩
    · by_cases hm : m.id = i
      · rw [if_pos hm] at hacc
        cases hacc
        exact Or.inl ⟨List.mem_cons_self _ _, hm⟩
      · rw [if_neg hm] at hacc
        exact Or.inr hacc

theorem nodeMap_mem {nodes : List Node} {i : String} {n : Node}
    (h : nodeMap nodes i = some n) : n ∈ nodes ∧ n.id = i := by
  rcases nodeMap_go h with h' | h'
  · exact h'
  · cases h'

theorem nodeMap_go_none {nodes : List Node} {i : String}
    (h : ∀ m ∈ nodes, m.id ≠ i) (acc : Option Node) :
    nodes.foldl (fun acc n => if n.id = i then some n else acc) acc = acc := by
  induction nodes generalizing acc with
  | nil => rfl
  | cons m rest ih =>
    simp only [List.foldl]
    rw [if_neg (h m (List.mem_cons_self _ _)), ih (fun m hm => h m (List.mem_cons_of_mem _ hm))]

theorem nodeMap_go_some {nodes : List Node} {i : String}
    (h : ∃ m ∈ nodes, m.id = i) :
    ∀ acc : Option Node,
      ∃ n, nodes.foldl (fun acc n => if n.id = i then some n else acc) acc = some n := by
  induction nodes with
  | nil => rcases h with ⟨m, hm, _⟩; cases hm
  | cons a rest ih =>
    intro acc
    simp only [List.foldl]
    by_cases hr : ∃ m ∈ rest, m.id = i
    · exact ih hr _
    · rcases h with ⟨m, hm, hid⟩
      rcases List.mem_cons.mp hm with rfl | hm
      · rw [if_pos hid]
        exact ⟨m, nodeMap_go_none (fun k hk hki => hr ⟨k, hk, hki⟩) _⟩
      · exact absurd ⟨m, hm, hid⟩ hr

theorem nodeMap_isSome_of_exists {nodes : List Node} {i : String}
    (h : ∃ m ∈ nodes, m.id = i) : ∃ n, nodeMap nodes i = some n :=
  nodeMap_go_some h none

theorem nodeMap_of_nodup {nodes : List Node} {i : String} {n : Node}
    (hnd : NodupIds nodes) (hmem : n ∈ nodes) (hid : n.id = i) :
    nodeMap nodes i = some n := by
  rcases nodeMap_isSome_of_exists ⟨n, hmem, hid⟩ with ⟨m, hm⟩
  rcases nodeMap_mem hm with ⟨hm1, hm2⟩
  have : m = n := List.inj_on_of_nodup_map hnd hm1 hmem (by rw [hm2, hid])
  rwa [this] at hm

theorem id_inj {nodes : List Node} (hnd : NodupIds nodes) {a b : Node}
    (ha : a ∈ nodes) (hb : b ∈ nodes) (h : a.id = b.id) : a = b :=
  List.inj_on_of_nodup_map hnd ha hb h

theorem downstream_trans {nodes : List Node} {a b c : String}
    (h1 : Downstream nodes a b) (h2 : Downstream nodes b c) :
    Downstream nodes a c := by
  induction h2 with
  | refl => exact h1
  | step m _ hm hy ih => exact Downstream.step m ih hm hy

/-! ## Layer assignment: determinism, soundness, completeness -/

theorem layerIs_inv {nodes : List Node} {i : String} {w : Nat}
    (h : LayerIs nodes i w) :
    (∃ n, nodeMap nodes i = some n ∧ n.prereqs = [] ∧ w = 0) ∨
    (∃ n, ∃ g : String → Nat, nodeMap nodes i = some n ∧ n.prereqs ≠ [] ∧
      (∀ p ∈ n.prereqs, LayerIs nodes p (g p)) ∧
      w = maxList (n.prereqs.map (fun p => g p + 1))) := by
  cases h with
  | base i' n hmap hpre => exact Or.inl ⟨n, hmap, hpre, rfl⟩
  | step i' n f hmap hpre hall => exact Or.inr ⟨n, f, hmap, hpre, hall, rfl⟩

theorem layerIs_det {nodes : List Node} {i : String} {v : Nat}
    (h : LayerIs nodes i v) : ∀ w, LayerIs nodes i w → v = w := by
  induction h with
  | base i n hmap hpre =>
    intro w hw
    rcases layerIs_inv hw with ⟨n', hmap', hpre', rfl⟩ | ⟨n', g, hmap', hpre', hall', rfl⟩
    · rfl
    · rw [hmap] at hmap'
      cases hmap'
      exact absurd hpre hpre'
  | step i n f hmap hpre hall ih =>
    intro w hw
    rcases layerIs_inv hw with ⟨n', hmap', hpre', rfl⟩ | ⟨n', g, hmap', hpre', hall', rfl⟩
    · rw [hmap] at hmap'
      cases hmap'
      exact absurd hpre' hpre
    · rw [hmap] at hmap'
      cases hmap'
      have hmaps : n.prereqs.map (fun p => f p + 1) = n.prereqs.map (fun p => g p + 1) := by
        apply List.map_congr_left
        intro p hp
        have := ih p hp (g p) (hall' p hp)
        omega
      rw [hmaps]

/-- Entries the memoization cache may hold: only correct layer values. -/
def CacheOK (nodes : List Node) (cache : Cache) : Prop :=
  ∀ i v, alookup i cache = some v → LayerIs nodes i v

theorem cacheOK_nil {nodes : List Node} : CacheOK nodes [] := by
  intro i v h
  cases h

theorem cacheOK_cons {nodes : List Node} {cache : Cache} {i : String} {v : Nat}
    (hok : CacheOK nodes cache) (hv : LayerIs nodes i v) :
    CacheOK nodes ((i, v) :: cache) := by
  intro j w hj
  simp only [alookup] at hj
  by_cases hij : i = j
  · rw [if_pos hij] at hj
    cases hj
    rw [← hij]
    exact hv
  · rw [if_neg hij] at hj
    exact hok j w hj

theorem prereqVals_sound {nodes : List Node}
    {f : Cache → String → Except JsErr (Nat × Cache)}
    (hf : ∀ cache p v c', CacheOK nodes cache → f cache p = .ok (v, c') →
      LayerIs nodes p v ∧ CacheOK nodes c') :
    ∀ (ps : List String) (cache : Cache) (vs : List Nat) (c2 : Cache),
      CacheOK nodes cache → prereqVals f cache ps = .ok (vs, c2) →
      CacheOK nodes c2 ∧ ∃ g : String → Nat,
        (∀ p ∈ ps, LayerIs nodes p (g p)) ∧ vs = ps.map (fun p => g p + 1) := by
  intro ps
  induction ps with
  | nil =>
    intro cache vs c2 hok h
    simp only [prereqVals, Except.ok.injEq, Prod.mk.injEq] at h
    obtain ⟨rfl, rfl⟩ := h
    exact ⟨hok, fun _ => 0, by simp, by simp⟩
  | cons p rest ih =>
    intro cache vs c2 hok h
    simp only [prereqVals] at h
    cases hfp : f cache p with
    | error e => simp only [hfp] at h; exact Except.noConfusion h
    | ok vc =>
      obtain ⟨v, c1⟩ := vc
      simp only [hfp] at h
      cases hrest : prereqVals f c1 rest with
      | error e => simp only [hrest] at h; exact Except.noConfusion h
      | ok vsc =>
        obtain ⟨vs', c2'⟩ := vsc
        simp only [hrest] at h
        simp only [Except.ok.injEq, Prod.mk.injEq] at h
        obtain ⟨rfl, rfl⟩ := h
        obtain ⟨hp, hok1⟩ := hf cache p v c1 hok hfp
        obtain ⟨hok2, g, hg, hvs⟩ := ih c1 vs' c2' hok1 hrest
        refine ⟨hok2, fun q => if q = p then v else g q, ?_, ?_⟩
        · intro q hq
          rcases List.mem_cons.mp hq with rfl | hq
          · simpa using hp
          · by_cases hqp : q = p
            · subst hqp
              simpa using hp
            · simpa [hqp] using hg q hq
        · simp only [List.map_cons, if_pos rfl]
          congr 1
          rw [hvs]
          apply List.map_congr_left
          intro q hq
          by_cases hqp : q = p
          · subst hqp
            have := layerIs_det (hg q hq) v hp
            simp [this]
          · simp [hqp]

theorem computeLayer_sound {nodes : List Node} :
    ∀ (fuel : Nat) (cache : Cache) (i : String) (v : Nat) (c' : Cache),
      CacheOK nodes cache → computeLayer nodes fuel cache i = .ok (v, c') →
      LayerIs nodes i v ∧ CacheOK nodes c' := by
  intro fuel
  induction fuel with
  | zero =>
    intro cache i v c' _ h
    simp [computeLayer] at h
  | succ f ih =>
    intro cache i v c' hok h
    rw [computeLayer] at h
    cases hc : alookup i cache with
    | some w =>
      simp only [hc] at h
      simp only [Except.ok.injEq, Prod.mk.injEq] at h
      obtain ⟨rfl, rfl⟩ := h
      exact ⟨hok i w hc, hok⟩
    | none =>
      simp only [hc] at h
      cases hm : nodeMap nodes i with
      | none => simp only [hm] at h; exact Except.noConfusion h
      | some node =>
        simp only [hm] at h
        by_cases hp : node.prereqs = []
        · rw [if_pos hp] at h
          simp only [Except.ok.injEq, Prod.mk.injEq] at h
          obtain ⟨rfl, rfl⟩ := h
          have hbase := LayerIs.base i node hm hp
          exact ⟨hbase, cacheOK_cons hok hbase⟩
        · rw [if_neg hp] at h
          cases hpv : prereqVals (computeLayer nodes f) cache node.prereqs with
          | error e => simp only [hpv] at h; exact Except.noConfusion h
          | ok vsc =>
            obtain ⟨vs, c1⟩ := vsc
            simp only [hpv] at h
            simp only [Except.ok.injEq, Prod.mk.injEq] at h
            obtain ⟨rfl, rfl⟩ := h
            obtain ⟨hok1, g, hg, hvs⟩ :=
              prereqVals_sound (fun cache p v c' => ih cache p v c')
                node.prereqs cache vs c1 hok hpv
            have hLi : LayerIs nodes i (maxList vs) := by
              rw [hvs]
              exact LayerIs.step i node g hm hp hg
            exact ⟨hLi, cacheOK_cons hok1 hLi⟩

theorem prereqVals_complete
    {f : Cache → String → Except JsErr (Nat × Cache)} {P : String → Prop}
    (hf : ∀ (cache : Cache) (p : String), P p → ∃ v c', f cache p = .ok (v, c')) :
    ∀ (ps : List String), (∀ p ∈ ps, P p) →
      ∀ cache, ∃ vs c2, prereqVals f cache ps = .ok (vs, c2) := by
  intro ps
  induction ps with
  | nil => intro _ cache; exact ⟨[], cache, rfl⟩
  | cons p rest ih =>
    intro hP cache
    obtain ⟨v, c1, hv⟩ := hf cache p (hP p (List.mem_cons_self _ _))
    obtain ⟨vs, c2, hvs⟩ := ih (fun q hq => hP q (List.mem_cons_of_mem _ hq)) c1
    exact ⟨(v + 1) :: vs, c2, by simp [prereqVals, hv, hvs]⟩

theorem computeLayer_complete {nodes : List Node} {r : String → Nat}
    (hcl : ClosedGraph nodes) (hr : Ranked nodes r) :
    ∀ (fuel : Nat) (i : String) (cache : Cache),
      (∃ m ∈ nodes, m.id = i) → r i < fuel →
      ∃ v c', computeLayer nodes fuel cache i = .ok (v, c') := by
  intro fuel
  induction fuel with
  | zero => intro i cache _ h; omega
  | succ f ih =>
    intro i cache hex hfuel
    cases hc : alookup i cache with
    | some v => exact ⟨v, cache, by rw [computeLayer]; simp only [hc]⟩
    | none =>
      obtain ⟨n, hn⟩ := nodeMap_isSome_of_exists hex
      obtain ⟨hnmem, hnid⟩ := nodeMap_mem hn
      by_cases hp : n.prereqs = []
      · exact ⟨0, (i, 0) :: cache, by rw [computeLayer]; simp only [hc, hn, if_pos hp]⟩
      · have hsub : ∀ p ∈ n.prereqs, (∃ m ∈ nodes, m.id = p) ∧ r p < f := by
          intro p hpp
          have h1 : r p < r n.id := hr n hnmem p hpp
          rw [hnid] at h1
          exact ⟨hcl n hnmem p hpp, by omega⟩
        obtain ⟨vs, c2, hvs⟩ := prereqVals_complete
          (f := computeLayer nodes f) (P := fun p => (∃ m ∈ nodes, m.id = p) ∧ r p < f)
          (fun cache p hpp => ih p cache hpp.1 hpp.2) n.prereqs hsub cache
        exact ⟨maxList vs, (i, maxList vs) :: c2,
          by rw [computeLayer]; simp only [hc, hn, if_neg hp, hvs]⟩

/-- The relation between an input node and its layered copy produced by
`setLayers`: all fields but `layer` preserved, `layer` a correct value. -/
def Layered (nodes : List Node) (n n' : Node) : Prop :=
  n'.id = n.id ∧ n'.label = n.label ∧ n'.type = n.type ∧
    n'.prereqs = n.prereqs ∧ LayerIs nodes n.id n'.layer

theorem setLayers_spec {nodes : List Node} {r : String → Nat}
    (hcl : ClosedGraph nodes) (hr : Ranked nodes r) (hrs : RankSmall nodes r) :
    ∀ (l : List Node), l ⊆ nodes → ∀ (cache : Cache), CacheOK nodes cache →
      ∃ out, setLayers (computeLayer nodes (nodes.length + 1)) l cache = .ok out ∧
        List.Forall₂ (Layered nodes) l out := by
  intro l
  induction l with
  | nil => intro _ cache _; exact ⟨[], rfl, List.Forall₂.nil⟩
  | cons n rest ih =>
    intro hsub cache hok
    have hnmem : n ∈ nodes := hsub (List.mem_cons_self _ _)
    have hfuel : r n.id < nodes.length + 1 := Nat.lt_succ_of_lt (hrs n hnmem)
    obtain ⟨v, c', hv⟩ :=
      computeLayer_complete hcl hr (nodes.length + 1) n.id cache ⟨n, hnmem, rfl⟩ hfuel
    obtain ⟨hLi, hok'⟩ := computeLayer_sound (nodes.length + 1) cache n.id v c' hok hv
    obtain ⟨out, hout, hrel⟩ := ih (fun m hm => hsub (List.mem_cons_of_mem _ hm)) c' hok'
    refine ⟨{n with layer := v} :: out, ?_, ?_⟩
    · simp [setLayers, hv, hout]
    · exact List.Forall₂.cons ⟨rfl, rfl, rfl, rfl, hLi⟩ hrel

theorem forall₂_mem_left {R : Node → Node → Prop} :
    ∀ {l out : List Node}, List.Forall₂ R l out → ∀ m ∈ l, ∃ m' ∈ out, R m m' := by
  intro l out h
  induction h with
  | nil => intro m hm; cases hm
  | cons hR hrest ih =>
    intro m hm
    rcases List.mem_cons.mp hm with rfl | hm
    · exact ⟨_, List.mem_cons_self _ _, hR⟩
    · obtain ⟨m', hm', hR'⟩ := ih m hm
      exact ⟨m', List.mem_cons_of_mem _ hm', hR'⟩

theorem forall₂_mem_right {R : Node → Node → Prop} :
    ∀ {l out : List Node}, List.Forall₂ R l out → ∀ m' ∈ out, ∃ m ∈ l, R m m' := by
  intro l out h
  induction h with
  | nil => intro m hm; cases hm
  | cons hR hrest ih =>
    intro m' hm'
    rcases List.mem_cons.mp hm' with rfl | hm'
    · exact ⟨_, List.mem_cons_self _ _, hR⟩
    · obtain ⟨m, hm, hR'⟩ := ih m' hm'
      exact ⟨m, List.mem_cons_of_mem _ hm, hR'⟩

theorem layered_ids_eq {nodes : List Node} :
    ∀ {l out : List Node}, List.Forall₂ (Layered nodes) l out →
      out.map Node.id = l.map Node.id := by
  intro l out h
  induction h with
  | nil => rfl
  | cons hR hrest ih => simp only [List.map_cons, ih, hR.1]

/-- The layer field the pass left on the node with id `p` (0 when no such
node exists; under the claims' hypotheses it always exists). -/
def layerFn (nodes : List Node) (p : String) : Nat :=
  ((nodeMap nodes p).map Node.layer).getD 0

theorem computeLayers_spec {nodes : List Node} {r : String → Nat}
    (hnd : NodupIds nodes) (hcl : ClosedGraph nodes) (hr : Ranked nodes r)
    (hrs : RankSmall nodes r) :
    ∃ out, computeLayers nodes = .ok out ∧
      out.map Node.id = nodes.map Node.id ∧
      List.Forall₂ (Layered nodes) nodes out ∧
      ∀ n' ∈ out, (n'.prereqs = [] → n'.layer = 0) ∧
        (n'.prereqs ≠ [] →
          n'.layer = 1 + maxList (n'.prereqs.map (layerFn out))) := by
  obtain ⟨out, hout, hrel⟩ :=
    setLayers_spec hcl hr hrs nodes (fun _ h => h) [] cacheOK_nil
  have hids : out.map Node.id = nodes.map Node.id := layered_ids_eq hrel
  have hndout : NodupIds out := by rw [NodupIds, hids]; exact hnd
  have hmemLi : ∀ n' ∈ out, ∃ n ∈ nodes, Layered nodes n n' := forall₂_mem_right hrel
  refine ⟨out, hout, hids, hrel, ?_⟩
  intro n' hn'
  obtain ⟨n, hn, hL⟩ := hmemLi n' hn'
  obtain ⟨hid, _, _, hpre, hLi⟩ := hL
  have hmapn : nodeMap nodes n.id = some n := nodeMap_of_nodup hnd hn rfl
  rcases layerIs_inv hLi with ⟨nn, hmap, hp, hv⟩ | ⟨nn, f, hmap, hp, hall, hv⟩ <;>
    rw [hmapn] at hmap <;> cases hmap
  · constructor
    · intro _
      exact hv
    · intro hne
      rw [hpre] at hne
      exact absurd hp hne
  · constructor
    · intro hempty
      rw [hpre] at hempty
      exact absurd hempty hp
    · intro hne
      have hmapeq : n.prereqs.map (fun p => f p + 1) =
          (n.prereqs.map (layerFn out)).map (· + 1) := by
        rw [List.map_map]
        apply List.map_congr_left
        intro p hpp
        obtain ⟨m, hm, hmid⟩ := hcl n hn p hpp
        obtain ⟨m', hm', hLm'⟩ := forall₂_mem_left hrel m hm
        have hm'id : m'.id = p := by rw [hLm'.1, hmid]
        have hmapm' : nodeMap out p = some m' := nodeMap_of_nodup hndout hm' hm'id
        have hLp : LayerIs nodes p m'.layer := by
          have := hLm'.2.2.2.2
          rwa [hmid] at this
        have hfp : f p = m'.layer := layerIs_det (hall p hpp) m'.layer hLp
        simp [Function.comp, hfp, layerFn, hmapm']
      have hlne : n.prereqs.map (layerFn out) ≠ [] := by
        intro hcon
        exact hp (List.map_eq_nil_iff.mp hcon)
      rw [hpre, hv, hmapeq, maxList_map_succ hlne]
      omega

theorem computeLayers_strict {nodes out : List Node} {r : String → Nat}
    (hnd : NodupIds nodes) (hcl : ClosedGraph nodes) (hr : Ranked nodes r)
    (hrs : RankSmall nodes r) (hout : computeLayers nodes = .ok out) :
    StrictLayers out := by
  obtain ⟨out', hout', hids, hrel, heqs⟩ := computeLayers_spec hnd hcl hr hrs
  rw [hout] at hout'
  cases hout'
  have hndout : NodupIds out := by rw [NodupIds, hids]; exact hnd
  intro n' hn' p hp m' hm' hmid
  have hmapm' : nodeMap out p = some m' := nodeMap_of_nodup hndout hm' hmid
  have hne : n'.prereqs ≠ [] := by
    intro hc
    rw [hc] at hp
    cases hp
  have heq := (heqs n' hn').2 hne
  have hmem : layerFn out p ∈ n'.prereqs.map (layerFn out) := List.mem_map_of_mem _ hp
  have hle : layerFn out p ≤ maxList (n'.prereqs.map (layerFn out)) := maxList_ge hmem
  have : layerFn out p = m'.layer := by simp [layerFn, hmapm']
  omega

/-! ## Cascading revocation -/

theorem cascadeScan_subset {step : String → List String → List String}
    (hsub : ∀ i' c', step i' c' ⊆ c') (i : String) :
    ∀ (l : List Node) (c : List String), cascadeScan step i l c ⊆ c := by
  intro l
  induction l with
  | nil => intro c x hx; exact hx
  | cons n rest ih =>
    intro c
    simp only [cascadeScan]
    by_cases hcond : i ∈ n.prereqs ∧ n.id ∈ c
    · rw [if_pos hcond]
      intro x hx
      exact sDelete_subset (hsub n.id (sDelete c n.id) (ih _ hx))
    · rw [if_neg hcond]
      exact ih c

theorem cascadeRemove_subset {nodes : List Node} :
    ∀ (fuel : Nat) (i : String) (c : List String),
      cascadeRemove nodes fuel i c ⊆ c := by
  intro fuel
  induction fuel with
  | zero => intro i c x hx; exact hx
  | succ f ih =>
    intro i c
    exact cascadeScan_subset (fun i' c' => ih i' c') i nodes c

theorem cascadeScan_length_le {step : String → List String → List String}
    (hlen : ∀ i' c', (step i' c').length ≤ c'.length) (i : String) :
    ∀ (l : List Node) (c : List String),
      (cascadeScan step i l c).length ≤ c.length := by
  intro l
  induction l with
  | nil => intro c; exact le_refl _
  | cons n rest ih =>
    intro c
    simp only [cascadeScan]
    by_cases hcond : i ∈ n.prereqs ∧ n.id ∈ c
    · rw [if_pos hcond]
      calc (cascadeScan step i rest (step n.id (sDelete c n.id))).length
          ≤ (step n.id (sDelete c n.id)).length := ih _
        _ ≤ (sDelete c n.id).length := hlen _ _
        _ ≤ c.length := List.length_filter_le _ _
    · rw [if_neg hcond]
      exact ih c

theorem cascadeRemove_length_le {nodes : List Node} :
    ∀ (fuel : Nat) (i : String) (c : List String),
      (cascadeRemove nodes fuel i c).length ≤ c.length := by
  intro fuel
  induction fuel with
  | zero => intro i c; exact le_refl _
  | succ f ih =>
    intro i c
    exact cascadeScan_length_le (fun i' c' => ih i' c') i nodes c

theorem cascadeScan_sound {nodes : List Node}
    {step : String → List String → List String} {i : String}
    (hsound : ∀ i' c' x, x ∈ c' → x ∉ step i' c' → Downstream nodes i' x) :
    ∀ (l : List Node), l ⊆ nodes →
      ∀ (c : List String) (x : String), x ∈ c → x ∉ cascadeScan step i l c →
        Downstream nodes i x := by
  intro l
  induction l with
  | nil => intro _ c x hx hnx; exact absurd hx hnx
  | cons n rest ih =>
    intro hl c x hx hnx
    simp only [cascadeScan] at hnx
    by_cases hcond : i ∈ n.prereqs ∧ n.id ∈ c
    · rw [if_pos hcond] at hnx
      have hdn : Downstream nodes i n.id :=
        Downstream.step n Downstream.refl (hl (List.mem_cons_self _ _)) hcond.1
      by_cases hx1 : x ∈ sDelete c n.id
      · by_cases hx2 : x ∈ step n.id (sDelete c n.id)
        · exact ih (fun m hm => hl (List.mem_cons_of_mem _ hm)) _ x hx2 hnx
        · exact downstream_trans hdn (hsound n.id _ x hx1 hx2)
      · have hxn : x = n.id := by
          by_contra hne
          exact hx1 (mem_sDelete.mpr ⟨hx, hne⟩)
        rw [hxn]
        exact hdn
    · rw [if_neg hcond] at hnx
      exact ih (fun m hm => hl (List.mem_cons_of_mem _ hm)) c x hx hnx

theorem cascadeRemove_sound {nodes : List Node} :
    ∀ (fuel : Nat) (i : String) (c : List String) (x : String),
      x ∈ c → x ∉ cascadeRemove nodes fuel i c → Downstream nodes i x := by
  intro fuel
  induction fuel with
  | zero => intro i c x hx hnx; exact absurd hx hnx
  | succ f ih =>
    intro i c x hx hnx
    exact cascadeScan_sound (fun i' c' x' => ih i' c' x') nodes (fun _ h => h) c x hx hnx

/-- After a cascade turned `c` into `r`, every id it removed has no
dependent left in `r`. -/
def PClean (nodes : List Node) (c r : List String) : Prop :=
  ∀ x ∈ c, x ∉ r → ∀ m ∈ nodes, m.id ∈ r → x ∉ m.prereqs

/-- After a cascade from `i` over the node list `l`, no node of `l` that
is still completed lists `i` among its prereqs. -/
def QClean (i : String) (l : List Node) (r : List String) : Prop :=
  ∀ m ∈ l, m.id ∈ r → i ∉ m.prereqs

theorem qclean_mono {i : String} {l : List Node} {r r' : List String}
    (h : QClean i l r) (hsub : r' ⊆ r) : QClean i l r' :=
  fun m hm hmr => h m hm (hsub hmr)

theorem cascadeScan_clean {nodes : List Node}
    {step : String → List String → List String} {B : Nat} {i : String}
    (hsub : ∀ i' c', step i' c' ⊆ c')
    (hlen : ∀ i' c', (step i' c').length ≤ c'.length)
    (hstep : ∀ i' c', c'.length ≤ B →
      PClean nodes c' (step i' c') ∧ QClean i' nodes (step i' c')) :
    ∀ (l : List Node) (c : List String), c.length ≤ B + 1 →
      PClean nodes c (cascadeScan step i l c) ∧
        QClean i l (cascadeScan step i l c) := by
  intro l
  induction l with
  | nil =>
    intro c _
    constructor
    · intro x hx hnx
      exact absurd hx hnx
    · intro m hm
      cases hm
  | cons n rest ih =>
    intro c hlenc
    simp only [cascadeScan]
    by_cases hcond : i ∈ n.prereqs ∧ n.id ∈ c
    · rw [if_pos hcond]
      have hlc1 : (sDelete c n.id).length ≤ B := by
        have := sDelete_length_lt (c := c) (y := n.id) hcond.2
        omega
      obtain ⟨hP1, hQ1⟩ := hstep n.id (sDelete c n.id) hlc1
      have hlr1 : (step n.id (sDelete c n.id)).length ≤ B + 1 :=
        le_trans (hlen n.id _) (by omega)
      obtain ⟨hP2, hQ2⟩ := ih (step n.id (sDelete c n.id)) hlr1
      have hressub : cascadeScan step i rest (step n.id (sDelete c n.id)) ⊆
          step n.id (sDelete c n.id) := cascadeScan_subset hsub i rest _
      have hr1sub : step n.id (sDelete c n.id) ⊆ sDelete c n.id := hsub n.id _
      constructor
      · intro x hx hnx m hm hmr
        by_cases hxn : x = n.id
        · subst hxn
          exact qclean_mono hQ1 hressub m hm hmr
        · have hxc1 : x ∈ sDelete c n.id := mem_sDelete.mpr ⟨hx, hxn⟩
          by_cases hxr1 : x ∈ step n.id (sDelete c n.id)
          · exact hP2 x hxr1 hnx m hm hmr
          · exact hP1 x hxc1 hxr1 m hm (hressub hmr)
      · intro m hm hmr
        rcases List.mem_cons.mp hm with rfl | hm
        · exfalso
          have : m.id ∈ sDelete c m.id := hr1sub (hressub hmr)
          exact (mem_sDelete.mp this).2 rfl
        · exact hQ2 m hm hmr
    · rw [if_neg hcond]
      obtain ⟨hP, hQ⟩ := ih c hlenc
      constructor
      · exact hP
      · intro m hm hmr
        rcases List.mem_cons.mp hm with rfl | hm
        · intro hip
          exact hcond ⟨hip, cascadeScan_subset hsub i rest c hmr⟩
        · exact hQ m hm hmr

theorem cascadeRemove_clean {nodes : List Node} :
    ∀ (fuel : Nat) (i : String) (c : List String), c.length ≤ fuel →
      PClean nodes c (cascadeRemove nodes fuel i c) ∧
        QClean i nodes (cascadeRemove nodes fuel i c) := by
  intro fuel
  induction fuel with
  | zero =>
    intro i c hc
    have : c = [] := List.length_eq_zero.mp (Nat.le_zero.mp hc)
    subst this
    constructor
    · intro x hx
      cases hx
    · intro m hm hmr
      cases hmr
  | succ f ih =>
    intro i c hc
    exact cascadeScan_clean (fun i' c' => cascadeRemove_subset f i' c')
      (fun i' c' => cascadeRemove_length_le f i' c')
      (fun i' c' h => ih i' c' h) nodes c hc

theorem cascadeScan_noop {step : String → List String → List String}
    {i : String} {c : List String} :
    ∀ l : List Node, (∀ m ∈ l, m.id ∈ c → i ∉ m.prereqs) →
      cascadeScan step i l c = c := by
  intro l
  induction l with
  | nil => intro _; rfl
  | cons n rest ih =>
    intro h
    simp only [cascadeScan]
    rw [if_neg, ih (fun m hm => h m (List.mem_cons_of_mem _ hm))]
    rintro ⟨h1, h2⟩
    exact h n (List.mem_cons_self _ _) h2 h1

theorem cascadeRemove_noop {nodes : List Node} {i : String} {c : List String}
    (h : ∀ m ∈ nodes, m.id ∈ c → i ∉ m.prereqs) :
    ∀ fuel, cascadeRemove nodes fuel i c = c := by
  intro fuel
  cases fuel with
  | zero => rfl
  | succ f => exact cascadeScan_noop nodes h

/-! ## Toggle branches and the completion invariant -/

theorem contains_eq_false {c : List String} {x : String} (h : x ∉ c) :
    c.contains x = false :=
  Bool.eq_false_iff.mpr (fun hc => h (contains_eq_true.mp hc))

theorem isUnlocked_iff {c : List String} {node : Node} :
    isUnlocked c node = true ↔ ∀ p ∈ node.prereqs, p ∈ c := by
  unfold isUnlocked
  by_cases h : node.prereqs = []
  · simp [h]
  · simp only [Bool.or_eq_true, List.isEmpty_iff, h, false_or, List.all_eq_true]
    constructor
    · intro ha p hp
      exact contains_eq_true.mp (ha p hp)
    · intro ha p hp
      exact contains_eq_true.mpr (ha p hp)

theorem toggleCompleted_done {nodes : List Node} {c : List String} {node : Node}
    (hdone : node.id ∈ c) :
    toggleCompleted nodes c node =
      sDelete (cascadeRemove nodes c.length node.id c) node.id := by
  unfold toggleCompleted
  rw [contains_eq_true.mpr hdone]
  simp

theorem toggleCompleted_locked {nodes : List Node} {c : List String} {node : Node}
    (hdone : node.id ∉ c) (hlock : isUnlocked c node = false) :
    toggleCompleted nodes c node = c := by
  unfold toggleCompleted
  rw [contains_eq_false hdone, hlock]
  simp

theorem toggleCompleted_add {nodes : List Node} {c : List String} {node : Node}
    (hdone : node.id ∉ c) (hunlock : isUnlocked c node = true) :
    toggleCompleted nodes c node = c ++ [node.id] := by
  unfold toggleCompleted
  rw [contains_eq_false hdone, hunlock]
  simp [sAdd, hdone]

theorem inv_revoke {nodes : List Node} {c : List String} {i : String}
    (hinv : Inv nodes c) :
    Inv nodes (sDelete (cascadeRemove nodes c.length i c) i) := by
  obtain ⟨hP, hQ⟩ := cascadeRemove_clean c.length i c (le_refl _)
  intro x hx m hm hmid p hp
  obtain ⟨hxcr, hxi⟩ := mem_sDelete.mp hx
  have hxc : x ∈ c := cascadeRemove_subset _ _ _ hxcr
  have hpc : p ∈ c := hinv x hxc m hm hmid p hp
  rw [mem_sDelete]
  constructor
  · by_contra hpcr
    exact hP p hpc hpcr m hm (by rw [hmid]; exact hxcr) hp
  · rintro rfl
    exact hQ m hm (by rw [hmid]; exact hxcr) hp

theorem inv_toggle {nodes : List Node} {c : List String} {node : Node}
    (hnd : NodupIds nodes) (hmem : node ∈ nodes) (hinv : Inv nodes c) :
    Inv nodes (toggleCompleted nodes c node) := by
  by_cases hdone : node.id ∈ c
  · rw [toggleCompleted_done hdone]
    exact inv_revoke hinv
  · cases hu : isUnlocked c node with
    | false =>
      rw [toggleCompleted_locked hdone hu]
      exact hinv
    | true =>
      rw [toggleCompleted_add hdone hu]
      intro x hx m hm hmid p hp
      rcases List.mem_append.mp hx with hx | hx
      · exact List.mem_append_left _ (hinv x hx m hm hmid p hp)
      · have hxe : x = node.id := by simpa using hx
        subst hxe
        have hmn : m = node := id_inj hnd hm hmem (by rw [hmid])
        subst hmn
        exact List.mem_append_left _ (isUnlocked_iff.mp hu p hp)

theorem inv_empty {nodes : List Node} : Inv nodes [] := by
  intro x hx
  cases hx

theorem sDelete_append_self {c : List String} {i : String} (h : i ∉ c) :
    sDelete (c ++ [i]) i = c := by
  unfold sDelete
  rw [List.filter_append]
  have h1 : c.filter (fun y => decide (y ≠ i)) = c := by
    apply List.filter_eq_self.mpr
    intro a ha
    simp only [ne_eq, decide_eq_true_eq]
    rintro rfl
    exact h ha
  have h2 : ([i].filter (fun y => decide (y ≠ i))) = ([] : List String) := by simp
  rw [h1, h2, List.append_nil]

theorem downstream_mem_or_eq {nodes : List Node} {root x : String}
    (h : Downstream nodes root x) :
    x = root ∨ ∃ m ∈ nodes, m.id = x ∧ ∃ y ∈ m.prereqs, Downstream nodes root y := by
  cases h with
  | refl => exact Or.inl rfl
  | step m hprev hmem hyp => exact Or.inr ⟨m, hmem, rfl, _, hyp, hprev⟩

/-! ## Concrete fixtures for witnesses and counterexamples -/

/-- The chain of the spec's cascade example: `b` requires `a`, `c`
requires `b`. -/
def linA : Node := { id := "a" }

def linB : Node := { id := "b", prereqs := ["a"] }

def linC : Node := { id := "c", prereqs := ["b"] }

def linNodes : List Node := [linA, linB, linC]

/-! ## Claim theorems: completion state -/

/-- C1: for every graph and completion set satisfying the completion
invariant, toggling a completed node leaves exactly the completed ids that
are not in the downstream closure of the node through the prereqs-reversed
edges — i.e. it removes the node's id and exactly the completed downstream
closure. -/
theorem toggle_revokes_exactly_closure (nodes : List Node) (c : List String)
    (node : Node) (hinv : Inv nodes c) (hdone : node.id ∈ c) :
    ∀ x, x ∈ toggleCompleted nodes c node ↔
      (x ∈ c ∧ ¬ Downstream nodes node.id x) := by
  rw [toggleCompleted_done hdone]
  intro x
  constructor
  · intro hx
    obtain ⟨hxcr, hxne⟩ := mem_sDelete.mp hx
    have hxc : x ∈ c := cascadeRemove_subset _ _ _ hxcr
    refine ⟨hxc, ?_⟩
    have hinv' : Inv nodes (sDelete (cascadeRemove nodes c.length node.id c) node.id) :=
      inv_revoke hinv
    intro hdx
    have hall : ∀ y, Downstream nodes node.id y →
        y ∉ sDelete (cascadeRemove nodes c.length node.id c) node.id := by
      intro y hy
      induction hy with
      | refl =>
        intro hcon
        exact (mem_sDelete.mp hcon).2 rfl
      | step m hprev hmem hyp ih =>
        intro hcon
        exact ih (hinv' m.id hcon m hmem rfl _ hyp)
    exact hall x hdx (mem_sDelete.mpr ⟨hxcr, hxne⟩)
  · rintro ⟨hxc, hnd⟩
    rw [mem_sDelete]
    constructor
    · by_contra hxcr
      exact hnd (cascadeRemove_sound _ _ _ _ hxc hxcr)
    · rintro rfl
      exact hnd Downstream.refl

/-- Witness for C1: on the chain a→b→c with all three completed, toggling
`b` keeps `a` completed (`a` is not downstream of `b`), removes `c`
(downstream of `b`), and removes `b` itself. -/
theorem toggle_revokes_exactly_closure_witness :
    "a" ∈ toggleCompleted linNodes ["a", "b", "c"] linB ∧
      "c" ∈ ["a", "b", "c"] ∧ "b" ∈ ["a", "b", "c"] := by
  refine ⟨?_, by decide, by decide⟩
  apply (toggle_revokes_exactly_closure linNodes ["a", "b", "c"] linB
    (by unfold Inv; decide) (by decide) "a").mpr
  refine ⟨by decide, ?_⟩
  intro hd
  rcases downstream_mem_or_eq hd with h | ⟨m, hm, hid, y, hy, _⟩
  · exact absurd h (by decide)
  · simp only [linNodes, List.mem_cons, List.not_mem_nil, or_false] at hm
    rcases hm with rfl | rfl | rfl
    · simp [linA] at hy
    · exact absurd hid (by decide)
    · exact absurd hid (by decide)

/-- C2: the completion invariant — no completed node without all its
prereqs completed — holds in the initial empty state and is preserved by
every toggle and by reset. -/
theorem completion_invariant_preserved (nodes : List Node) (c : List String)
    (node : Node) (hnd : NodupIds nodes) (hmem : node ∈ nodes)
    (hinv : Inv nodes c) :
    Inv nodes ([] : List String) ∧
      Inv nodes (toggleCompleted nodes c node) ∧
      Inv nodes resetCompleted :=
  ⟨inv_empty, inv_toggle hnd hmem hinv, inv_empty⟩

/-- Witness for C2 on the chain a→b→c with `a`, `b` completed, toggling
`b`. -/
theorem completion_invariant_preserved_witness :
    Inv linNodes ([] : List String) ∧
      Inv linNodes (toggleCompleted linNodes ["a", "b"] linB) ∧
      Inv linNodes resetCompleted :=
  completion_invariant_preserved linNodes ["a", "b"] linB
    (by unfold NodupIds; decide) (by decide) (by unfold Inv; decide)

/-- C10: toggling an unlocked, not-completed node and immediately toggling
it again restores the completion set exactly (the revocation cascade finds
no completed dependent to remove). -/
theorem toggle_toggle_roundtrip (nodes : List Node) (c : List String)
    (node : Node) (hnd : NodupIds nodes) (hmem : node ∈ nodes)
    (hinv : Inv nodes c) (hdone : node.id ∉ c)
    (hunlock : isUnlocked c node = true) :
    toggleCompleted nodes (toggleCompleted nodes c node) node = c := by
  rw [toggleCompleted_add hdone hunlock]
  have hdone2 : node.id ∈ c ++ [node.id] := List.mem_append_right _ (by simp)
  rw [toggleCompleted_done hdone2]
  have hnoop : ∀ m ∈ nodes, m.id ∈ c ++ [node.id] → node.id ∉ m.prereqs := by
    intro m hm hmid hp
    rcases List.mem_append.mp hmid with hmid | hmid
    · exact hdone (hinv m.id hmid m hm rfl (Node.id node) hp)
    · have hme : m.id = node.id := by simpa using hmid
      have hmn : m = node := id_inj hnd hm hmem hme
      rw [hmn] at hp
      exact hdone (isUnlocked_iff.mp hunlock (Node.id node) hp)
  rw [cascadeRemove_noop hnoop _]
  exact sDelete_append_self hdone

/-- Witness for C10: on the chain a→b→c with `a` completed, toggling `b`
twice gives back exactly the set containing `a`. -/
theorem toggle_toggle_roundtrip_witness :
    toggleCompleted linNodes (toggleCompleted linNodes ["a"] linB) linB = ["a"] :=
  toggle_toggle_roundtrip linNodes ["a"] linB
    (by unfold NodupIds; decide) (by decide) (by unfold Inv; decide) (by decide) (by decide)

/-! ## Claim theorems: layer assignment and construction -/

theorem layered_record_eq {nodes : List Node} {n n' : Node}
    (h : Layered nodes n n') : n' = { n with layer := n'.layer } := by
  obtain ⟨h1, h2, h3, h4, -⟩ := h
  cases n
  cases n'
  simp_all

/-- C3: for every well-formed acyclic graph the layer pass succeeds and
sets every node's layer field with `layer(n) = 0` when `n.prereqs` is
empty and `layer(n) = 1 + max(layer(p) for p in n.prereqs)` otherwise. -/
theorem computeLayers_assigns_longest_path (nodes : List Node) (r : String → Nat)
    (hnd : NodupIds nodes) (hcl : ClosedGraph nodes) (hr : Ranked nodes r)
    (hrs : RankSmall nodes r) :
    ∃ out, computeLayers nodes = .ok out ∧
      out.map Node.id = nodes.map Node.id ∧
      List.Forall₂ (fun n n' => n' = { n with layer := n'.layer }) nodes out ∧
      ∀ n' ∈ out, (n'.prereqs = [] → n'.layer = 0) ∧
        (n'.prereqs ≠ [] →
          n'.layer = 1 + maxList (n'.prereqs.map (layerFn out))) := by
  obtain ⟨out, hout, hids, hrel, heqs⟩ := computeLayers_spec hnd hcl hr hrs
  exact ⟨out, hout, hids, hrel.imp (fun a b h => layered_record_eq h), heqs⟩

/-- The three-node scenario of spec §8: `b` requires `a`, `c` requires
both `a` and `b`; expected layers 0, 1, 2. -/
def scA : Node := { id := "a" }

def scB : Node := { id := "b", prereqs := ["a"] }

def scC : Node := { id := "c", prereqs := ["a", "b"] }

def scNodes : List Node := [scA, scB, scC]

def scRank : String → Nat := fun s => if s = "a" then 0 else if s = "b" then 1 else 2

/-- Witness for C3: the spec §8 scenario satisfies the hypotheses and its
layer pass succeeds. -/
theorem computeLayers_assigns_longest_path_witness :
    (computeLayers scNodes).isOk = true := by
  obtain ⟨out, hout, -, -, -⟩ := computeLayers_assigns_longest_path scNodes scRank
    (by unfold NodupIds; decide) (by unfold ClosedGraph; decide)
    (by unfold Ranked scRank; decide) (by unfold RankSmall scRank; decide)
  rw [hout]
  rfl

/-- Two nodes sharing the id "a". -/
def dupNodes : List Node := [{ id := "a" }, { id := "a", label := "copy" }]

/-- C4 (code bug): the constructor performs no input validation at all.
On a duplicate id it silently keeps the later node in the map and
initializes successfully; on a dangling prereq reference it aborts with a
JS `TypeError`, not a `MalformedGraphError` (no such error exists in the
code). -/
theorem constructor_performs_no_validation :
    (initEngine dupNodes).isOk = true ∧
      initEngine [{ id := "a", prereqs := ["ghost"] }] = .error .typeError := by
  constructor <;> rfl

/-- A two-node cycle: "a" requires "b" and "b" requires "a". -/
def cycA : Node := { id := "a", prereqs := ["b"] }

def cycB : Node := { id := "b", prereqs := ["a"] }

def cycNodes : List Node := [cycA, cycB]

theorem cycA_id : cycA.id = "a" := rfl

theorem cycA_prereqs : cycA.prereqs = ["b"] := rfl

theorem cycB_prereqs : cycB.prereqs = ["a"] := rfl

theorem cyc_computeLayer_stuck :
    ∀ (fuel : Nat) (cache : Cache), alookup "a" cache = none →
      alookup "b" cache = none →
      computeLayer cycNodes fuel cache "a" = .error .stackOverflow ∧
      computeLayer cycNodes fuel cache "b" = .error .stackOverflow := by
  intro fuel
  induction fuel with
  | zero => intro cache _ _; exact ⟨rfl, rfl⟩
  | succ f ih =>
    intro cache ha hb
    have hma : nodeMap cycNodes "a" = some cycA := rfl
    have hmb : nodeMap cycNodes "b" = some cycB := rfl
    constructor
    · rw [computeLayer]
      simp only [ha, hma]
      rw [if_neg (by decide), cycA_prereqs]
      have hb' := (ih cache ha hb).2
      simp only [prereqVals, hb']
    · rw [computeLayer]
      simp only [hb, hmb]
      rw [if_neg (by decide), cycB_prereqs]
      have ha' := (ih cache ha hb).1
      simp only [prereqVals, ha']

/-- C5 (code bug): on a cyclic graph the memoized recursion of
`computeLayers` revisits the cycle's nodes without ever caching them, so
it exhausts any call-stack depth (fuel) and aborts with a stack overflow.
There is no `CycleDetectedError` anywhere in the code. -/
theorem cyclic_layers_never_terminate :
    ∀ fuel, setLayers (computeLayer cycNodes fuel) cycNodes [] =
      .error .stackOverflow := by
  intro fuel
  have h := (cyc_computeLayer_stuck fuel [] rfl rfl).1
  simp only [cycNodes] at h ⊢
  simp only [setLayers, cycA_id, h]

/-! ## Claim theorems: progress ratio -/

/-- A graph with no required node. -/
def optOnly : List Node := [{ id := "a", type := "optional" }]

/-- Counterexample to C6 as stated: with zero required nodes the code
performs the division `completedRequired / required.length` unguarded;
`0 / 0` is the non-finite `NaN` (modelled `none`) — the ratio is neither
`0` nor any handled finite value. -/
theorem progress_ratio_unguarded_cex :
    progressRatio optOnly [] = none := rfl

/-- C6 amended: the progress computation yields `K / N` when `N > 0`
required nodes exist with `K` completed; when `N = 0` the division is
unguarded and evaluates to `NaN` (JavaScript raises no error; the
resulting `"NaN%"` CSS width is simply invalid). -/
theorem progress_ratio_amended (nodes : List Node) (c : List String) :
    (0 < (requiredNodes nodes).length →
      progressRatio nodes c =
        some ((completedRequiredCount nodes c : ℚ) /
          ((requiredNodes nodes).length : ℚ))) ∧
    ((requiredNodes nodes).length = 0 → progressRatio nodes c = none) := by
  constructor
  · intro h
    have hne : (((requiredNodes nodes).length : ℚ)) ≠ 0 :=
      Nat.cast_ne_zero.mpr (by omega)
    unfold progressRatio jsDiv
    rw [if_neg hne]
  · intro h
    unfold progressRatio jsDiv
    rw [h]
    norm_num

/-- Two required nodes. -/
def reqTwo : List Node := [{ id := "a" }, { id := "b" }]

/-- Witness for the amended C6: two required nodes, one completed, ratio
one half. -/
theorem progress_ratio_amended_witness :
    progressRatio reqTwo ["a"] = some ((1 : ℚ) / 2) := by
  have h := (progress_ratio_amended reqTwo ["a"]).1 (by decide)
  have hK : completedRequiredCount reqTwo ["a"] = 1 := rfl
  have hN : (requiredNodes reqTwo).length = 2 := rfl
  rw [h, hK, hN]
  norm_num

/-! ## Layout: position map and placement lemmas -/

theorem alookup_setPos_self {xs : PosMap} {i : String} {v : ℚ × Option ℚ} :
    alookup i (setPos xs i v) = some v := by
  simp [setPos, alookup]

theorem alookup_setPos_ne {xs : PosMap} {i j : String} {v : ℚ × Option ℚ}
    (h : i ≠ j) : alookup j (setPos xs i v) = alookup j xs := by
  simp [setPos, alookup, h]

theorem placeGroup_lookup_notmem {cfg : Cfg} {sx : ℚ} {y : Option ℚ} :
    ∀ (g : List Node) (k : Nat) (xs : PosMap) (i : String),
      (∀ n ∈ g, n.id ≠ i) →
      alookup i (placeGroup cfg sx y g k xs) = alookup i xs := by
  intro g
  induction g with
  | nil => intro k xs i _; rfl
  | cons n rest ih =>
    intro k xs i h
    simp only [placeGroup]
    rw [ih _ _ _ (fun m hm => h m (List.mem_cons_of_mem _ hm))]
    exact alookup_setPos_ne (h n (List.mem_cons_self _ _))

theorem placeGroup_lookup_get {cfg : Cfg} {sx : ℚ} {y : Option ℚ} :
    ∀ (g : List Node) (k : Nat) (xs : PosMap),
      (g.map Node.id).Nodup →
      ∀ (j : Nat) (hj : j < g.length),
        alookup ((g.get ⟨j, hj⟩).id) (placeGroup cfg sx y g k xs) =
          some (sx + ((k + j : Nat) : ℚ) * (cfg.nodeWidth + cfg.nodeGap), y) := by
  intro g
  induction g with
  | nil => intro k xs _ j hj; cases hj
  | cons n rest ih =>
    intro k xs hnd j hj
    simp only [List.map_cons, List.nodup_cons] at hnd
    obtain ⟨hn, hrest⟩ := hnd
    cases j with
    | zero =>
      simp only [List.get, placeGroup]
      rw [placeGroup_lookup_notmem rest (k + 1) _ n.id
        (fun m hm hme => hn (hme ▸ List.mem_map_of_mem Node.id hm))]
      rw [alookup_setPos_self]
      norm_num
    | succ j' =>
      simp only [List.get, placeGroup]
      have hj' : j' < rest.length := by
        simp only [List.length_cons] at hj
        omega
      have := ih (k + 1) (setPos xs n.id (sx + (k : ℚ) * (cfg.nodeWidth + cfg.nodeGap), y))
        hrest j' hj'
      rw [this]
      congr 2
      push_cast
      ring

/-! ## Layout: the stable sort -/

theorem mem_insertB {key : Node → ℚ} {n x : Node} :
    ∀ {l : List Node}, x ∈ insertB key n l ↔ x = n ∨ x ∈ l := by
  intro l
  induction l with
  | nil => simp [insertB]
  | cons m rest ih =>
    simp only [insertB]
    by_cases h : key m < key n
    · rw [if_pos h]
      simp only [List.mem_cons, ih]
      tauto
    · rw [if_neg h]
      simp only [List.mem_cons]

theorem insertB_perm (key : Node → ℚ) (n : Node) :
    ∀ l : List Node, (insertB key n l).Perm (n :: l) := by
  intro l
  induction l with
  | nil => simp [insertB]
  | cons m rest ih =>
    simp only [insertB]
    by_cases h : key m < key n
    · rw [if_pos h]
      exact (ih.cons m).trans (List.Perm.swap n m rest)
    · rw [if_neg h]

theorem sortB_perm (key : Node → ℚ) :
    ∀ l : List Node, (sortB key l).Perm l := by
  intro l
  induction l with
  | nil => simp [sortB]
  | cons n rest ih =>
    simp only [sortB]
    exact ((insertB_perm key n (sortB key rest)).trans (ih.cons n))

theorem insertB_sorted {key : Node → ℚ} {n : Node} :
    ∀ {l : List Node}, l.Pairwise (fun a b => key a ≤ key b) →
      (insertB key n l).Pairwise (fun a b => key a ≤ key b) := by
  intro l
  induction l with
  | nil => intro _; simp [insertB]
  | cons m rest ih =>
    intro h
    rw [List.pairwise_cons] at h
    obtain ⟨hm, hrest⟩ := h
    simp only [insertB]
    by_cases hlt : key m < key n
    · rw [if_pos hlt]
      rw [List.pairwise_cons]
      constructor
      · intro x hx
        rcases mem_insertB.mp hx with rfl | hx
        · exact le_of_lt hlt
        · exact hm x hx
      · exact ih hrest
    · rw [if_neg hlt]
      rw [List.pairwise_cons]
      constructor
      · intro x hx
        rcases List.mem_cons.mp hx with rfl | hx
        · exact le_of_not_lt hlt
        · exact le_trans (le_of_not_lt hlt) (hm x hx)
      · exact List.Pairwise.cons hm hrest

theorem sortB_sorted (key : Node → ℚ) :
    ∀ l : List Node, (sortB key l).Pairwise (fun a b => key a ≤ key b) := by
  intro l
  induction l with
  | nil => simp [sortB]
  | cons n rest ih =>
    simp only [sortB]
    exact insertB_sorted ih

theorem insertB_filter {key : Node → ℚ} {n : Node} {k : ℚ} :
    ∀ l : List Node,
      (insertB key n l).filter (fun m => key m = k) =
        if key n = k then n :: l.filter (fun m => key m = k)
        else l.filter (fun m => key m = k) := by
  intro l
  induction l with
  | nil =>
    simp only [insertB, List.filter]
    by_cases h : key n = k
    · simp [h]
    · simp [h]
  | cons m rest ih =>
    simp only [insertB]
    by_cases hlt : key m < key n
    · rw [if_pos hlt]
      by_cases hm : key m = k
      · have hn : ¬ key n = k := by
          intro hc
          rw [hc, ← hm] at hlt
          exact lt_irrefl _ hlt
        simp only [List.filter_cons, hm, decide_eq_true_eq, if_pos hm, ih, if_neg hn]
      · simp only [List.filter_cons, ih]
        by_cases hn : key n = k
        · simp [hm, hn]
        · simp [hm, hn]
    · rw [if_neg hlt]
      by_cases hn : key n = k
      · simp [List.filter_cons, hn]
      · simp [List.filter_cons, hn]

theorem sortB_filter (key : Node → ℚ) (k : ℚ) :
    ∀ l : List Node,
      (sortB key l).filter (fun m => key m = k) =
        l.filter (fun m => key m = k) := by
  intro l
  induction l with
  | nil => rfl
  | cons n rest ih =>
    simp only [sortB, insertB_filter, List.filter_cons, ih]
    by_cases hn : key n = k
    · simp [hn]
    · simp [hn]

theorem insertB_congr {key1 key2 : Node → ℚ} {n : Node} :
    ∀ l : List Node, (∀ m ∈ l, key1 m = key2 m) → key1 n = key2 n →
      insertB key1 n l = insertB key2 n l := by
  intro l
  induction l with
  | nil => intro _ _; rfl
  | cons m rest ih =>
    intro hl hn
    simp only [insertB]
    rw [hl m (List.mem_cons_self _ _), hn,
      ih (fun x hx => hl x (List.mem_cons_of_mem _ hx)) hn]

theorem sortB_congr {key1 key2 : Node → ℚ} :
    ∀ l : List Node, (∀ m ∈ l, key1 m = key2 m) →
      sortB key1 l = sortB key2 l := by
  intro l
  induction l with
  | nil => intro _; rfl
  | cons n rest ih =>
    intro hl
    simp only [sortB]
    rw [ih (fun x hx => hl x (List.mem_cons_of_mem _ hx))]
    exact insertB_congr _
      (fun x hx => hl x (List.mem_cons_of_mem _ ((sortB_perm key2 rest).mem_iff.mp hx)))
      (hl n (List.mem_cons_self _ _))

/-! ## Layout: the layer loop -/

theorem maxLayerOf_ge {nodes : List Node} {n : Node} (hn : n ∈ nodes) :
    n.layer ≤ maxLayerOf nodes :=
  maxList_ge (List.mem_map_of_mem Node.layer hn)

theorem mem_groupOf {nodes : List Node} {L : Nat} {n : Node} :
    n ∈ groupOf nodes L ↔ n ∈ nodes ∧ n.layer = L := by
  simp [groupOf, List.mem_filter]

theorem groupOf_ids_nodup {nodes : List Node} (hnd : NodupIds nodes) (L : Nat) :
    ((groupOf nodes L).map Node.id).Nodup := by
  apply List.Nodup.sublist _ hnd
  exact (List.filter_sublist _).map _

/-- The group of layer `L` in the order the pass positions it, given the
position state `xs` at the start of the layer's iteration. -/
def inOrder (nodes : List Node) (xs : PosMap) (L : Nat) : List Node :=
  if 0 < L then sortB (bary xs) (groupOf nodes L) else groupOf nodes L

theorem layoutLayer_eq (cfg : Cfg) (nodes : List Node) (W H : ℚ) (maxL : Nat)
    (xs : PosMap) (L : Nat) :
    layoutLayer cfg nodes W H maxL xs L =
      placeGroup cfg (startXOf cfg W ((inOrder nodes xs L).length : ℚ))
        (yOf cfg H maxL L) (inOrder nodes xs L) 0 xs := rfl

theorem inOrder_length (nodes : List Node) (xs : PosMap) (L : Nat) :
    (inOrder nodes xs L).length = (groupOf nodes L).length := by
  unfold inOrder
  by_cases h : 0 < L
  · rw [if_pos h]
    exact (sortB_perm _ _).length_eq
  · rw [if_neg h]

theorem mem_inOrder {nodes : List Node} {xs : PosMap} {L : Nat} {x : Node} :
    x ∈ inOrder nodes xs L ↔ x ∈ groupOf nodes L := by
  unfold inOrder
  by_cases h : 0 < L
  · rw [if_pos h]
    exact (sortB_perm _ _).mem_iff
  · rw [if_neg h]

theorem inOrder_ids_nodup {nodes : List Node} {xs : PosMap} {L : Nat}
    (hnd : NodupIds nodes) : ((inOrder nodes xs L).map Node.id).Nodup := by
  unfold inOrder
  by_cases h : 0 < L
  · rw [if_pos h]
    exact ((sortB_perm (bary xs) (groupOf nodes L)).map Node.id).nodup_iff.mpr
      (groupOf_ids_nodup hnd L)
  · rw [if_neg h]
    exact groupOf_ids_nodup hnd L

theorem layoutUpTo_succ (cfg : Cfg) (nodes : List Node) (W H : ℚ)
    (xs0 : PosMap) (L : Nat) :
    layoutUpTo cfg nodes W H xs0 (L + 1) =
      layoutLayer cfg nodes W H (maxLayerOf nodes)
        (layoutUpTo cfg nodes W H xs0 L) L := by
  unfold layoutUpTo
  rw [List.range_succ, List.foldl_append]
  rfl

theorem layoutLayer_lookup_other {cfg : Cfg} {nodes : List Node} {W H : ℚ}
    {maxL : Nat} {xs : PosMap} {L : Nat} {i : String}
    (h : ∀ n ∈ nodes, n.layer = L → n.id ≠ i) :
    alookup i (layoutLayer cfg nodes W H maxL xs L) = alookup i xs := by
  rw [layoutLayer_eq]
  apply placeGroup_lookup_notmem
  intro n hn
  obtain ⟨hg1, hg2⟩ := mem_groupOf.mp (mem_inOrder.mp hn)
  exact h n hg1 hg2

theorem layoutUpTo_persist (cfg : Cfg) (nodes : List Node) (W H : ℚ)
    (xs0 : PosMap) (hnd : NodupIds nodes) {m : Node} (hm : m ∈ nodes)
    (L1 : Nat) (h1 : m.layer < L1) :
    ∀ L2, L1 ≤ L2 →
      alookup m.id (layoutUpTo cfg nodes W H xs0 L2) =
        alookup m.id (layoutUpTo cfg nodes W H xs0 L1) := by
  intro L2
  induction L2 with
  | zero =>
    intro h
    have h0 : L1 = 0 := Nat.le_zero.mp h
    rw [h0]
  | succ K ih =>
    intro h
    rcases Nat.lt_or_ge K (L1) with hlt | hge
    · have h0 : L1 = K + 1 := by omega
      rw [h0]
    · rw [layoutUpTo_succ]
      have hother : ∀ n ∈ nodes, n.layer = K → n.id ≠ m.id := by
        intro n hn hlayer hne
        have hnm : n = m := id_inj hnd hn hm hne
        rw [hnm] at hlayer
        omega
      rw [layoutLayer_lookup_other hother]
      exact ih hge

theorem foldl_getX_congr {xs1 xs2 : PosMap} :
    ∀ (ps : List String) (s : ℚ), (∀ p ∈ ps, getX xs1 p = getX xs2 p) →
      ps.foldl (fun s p => s + getX xs1 p) s =
        ps.foldl (fun s p => s + getX xs2 p) s := by
  intro ps
  induction ps with
  | nil => intro s _; rfl
  | cons p rest ih =>
    intro s h
    simp only [List.foldl]
    rw [h p (List.mem_cons_self _ _),
      ih _ (fun q hq => h q (List.mem_cons_of_mem _ hq))]

theorem bary_congr {xs1 xs2 : PosMap} {n : Node}
    (h : ∀ p ∈ n.prereqs, getX xs1 p = getX xs2 p) :
    bary xs1 n = bary xs2 n := by
  unfold bary
  rw [foldl_getX_congr n.prereqs 0 h]

theorem getX_mid_eq_final {cfg : Cfg} {nodes : List Node} {W H : ℚ}
    {xs0 : PosMap} (hnd : NodupIds nodes) {m' : Node} (hm' : m' ∈ nodes)
    {L : Nat} (h : m'.layer < L) :
    alookup m'.id (layoutUpTo cfg nodes W H xs0 L) =
      alookup m'.id (layoutUpTo cfg nodes W H xs0 (maxLayerOf nodes + 1)) := by
  rw [layoutUpTo_persist cfg nodes W H xs0 hnd hm' _ (Nat.lt_succ_self _) L h,
    layoutUpTo_persist cfg nodes W H xs0 hnd hm' _ (Nat.lt_succ_self _)
      (maxLayerOf nodes + 1) (Nat.succ_le_succ (maxLayerOf_ge hm'))]

theorem bary_mid_eq_final {cfg : Cfg} {nodes : List Node} {W H : ℚ}
    {xs0 : PosMap} (hnd : NodupIds nodes) (hcl : ClosedGraph nodes)
    (hsl : StrictLayers nodes) {L : Nat} {n : Node} (hn : n ∈ groupOf nodes L) :
    bary (layoutUpTo cfg nodes W H xs0 L) n =
      bary (layoutUpTo cfg nodes W H xs0 (maxLayerOf nodes + 1)) n := by
  obtain ⟨hnn, hnl⟩ := mem_groupOf.mp hn
  apply bary_congr
  intro p hp
  obtain ⟨m', hm', hid⟩ := hcl n hnn p hp
  have hlt : m'.layer < L := by
    have := hsl n hnn p hp m' hm' hid
    omega
  unfold getX
  rw [← hid, getX_mid_eq_final hnd hm' hlt]

theorem inOrder_mid_eq_final (cfg : Cfg) (nodes : List Node) (W H : ℚ)
    (xs0 : PosMap) (hnd : NodupIds nodes) (hcl : ClosedGraph nodes)
    (hsl : StrictLayers nodes) (L : Nat) :
    inOrder nodes (layoutUpTo cfg nodes W H xs0 L) L =
      inOrder nodes (layoutUpTo cfg nodes W H xs0 (maxLayerOf nodes + 1)) L := by
  unfold inOrder
  by_cases h : 0 < L
  · rw [if_pos h, if_pos h]
    exact sortB_congr _ (fun m hm => bary_mid_eq_final hnd hcl hsl hm)
  · rw [if_neg h, if_neg h]

theorem layoutUpTo_place (cfg : Cfg) (nodes : List Node) (W H : ℚ)
    (xs0 : PosMap) (hnd : NodupIds nodes) (L : Nat) (j : Nat)
    (hj : j < (inOrder nodes (layoutUpTo cfg nodes W H xs0 L) L).length) :
    alookup (((inOrder nodes (layoutUpTo cfg nodes W H xs0 L) L).get ⟨j, hj⟩).id)
        (layoutUpTo cfg nodes W H xs0 (L + 1)) =
      some (startXOf cfg W ((groupOf nodes L).length : ℚ) +
        (j : ℚ) * (cfg.nodeWidth + cfg.nodeGap),
        yOf cfg H (maxLayerOf nodes) L) := by
  rw [layoutUpTo_succ, layoutLayer_eq,
    placeGroup_lookup_get _ 0 _ (inOrder_ids_nodup hnd) j hj, inOrder_length]
  norm_num

theorem layoutPass_lookup_node (cfg : Cfg) (nodes : List Node) (W H : ℚ)
    (xs0 : PosMap) (hnd : NodupIds nodes) {n : Node} (hn : n ∈ nodes) :
    ∃ j : Nat, alookup n.id (layoutPass cfg nodes W H xs0) =
      some (startXOf cfg W ((groupOf nodes n.layer).length : ℚ) +
        (j : ℚ) * (cfg.nodeWidth + cfg.nodeGap),
        yOf cfg H (maxLayerOf nodes) n.layer) := by
  have hg : n ∈ inOrder nodes (layoutUpTo cfg nodes W H xs0 n.layer) n.layer :=
    mem_inOrder.mpr (mem_groupOf.mpr ⟨hn, rfl⟩)
  obtain ⟨⟨j, hj⟩, hget⟩ := List.mem_iff_get.mp hg
  refine ⟨j, ?_⟩
  unfold layoutPass
  rw [layoutUpTo_persist cfg nodes W H xs0 hnd hn _ (Nat.lt_succ_self _)
    (maxLayerOf nodes + 1) (Nat.succ_le_succ (maxLayerOf_ge hn))]
  have hplace := layoutUpTo_place cfg nodes W H xs0 hnd n.layer j hj
  rw [hget] at hplace
  exact hplace

theorem layoutUpTo_indep {cfg : Cfg} {nodes : List Node} {W H : ℚ}
    (hnd : NodupIds nodes) (hcl : ClosedGraph nodes) (hsl : StrictLayers nodes)
    (xs1 xs2 : PosMap) :
    ∀ L, ∀ m ∈ nodes, m.layer < L →
      alookup m.id (layoutUpTo cfg nodes W H xs1 L) =
        alookup m.id (layoutUpTo cfg nodes W H xs2 L) := by
  intro L
  induction L with
  | zero => intro m hm h; omega
  | succ K ih =>
    intro m hm hlt
    by_cases hmK : m.layer = K
    · have hkey : ∀ n ∈ groupOf nodes K,
          bary (layoutUpTo cfg nodes W H xs1 K) n =
            bary (layoutUpTo cfg nodes W H xs2 K) n := by
        intro n hng
        obtain ⟨hnn, hnl⟩ := mem_groupOf.mp hng
        apply bary_congr
        intro p hp
        obtain ⟨m', hm', hid⟩ := hcl n hnn p hp
        have hlt' : m'.layer < K := by
          have := hsl n hnn p hp m' hm' hid
          omega
        unfold getX
        rw [← hid, ih m' hm' hlt']
      have hord : inOrder nodes (layoutUpTo cfg nodes W H xs1 K) K =
          inOrder nodes (layoutUpTo cfg nodes W H xs2 K) K := by
        unfold inOrder
        by_cases h : 0 < K
        · rw [if_pos h, if_pos h]
          exact sortB_congr _ hkey
        · rw [if_neg h, if_neg h]
      have hg1 : m ∈ inOrder nodes (layoutUpTo cfg nodes W H xs1 K) K :=
        mem_inOrder.mpr (mem_groupOf.mpr ⟨hm, hmK⟩)
      obtain ⟨⟨j, hj⟩, hget⟩ := List.mem_iff_get.mp hg1
      rw [layoutUpTo_succ, layoutUpTo_succ, layoutLayer_eq, layoutLayer_eq,
        ← hord, ← hget,
        placeGroup_lookup_get _ 0 _ (inOrder_ids_nodup hnd) j hj,
        placeGroup_lookup_get _ 0 _ (inOrder_ids_nodup hnd) j hj]
    · have hmlt : m.layer < K := by omega
      rw [layoutUpTo_succ, layoutUpTo_succ]
      have hother : ∀ n ∈ nodes, n.layer = K → n.id ≠ m.id := by
        intro n hn hlayer hne
        have hnm : n = m := id_inj hnd hn hm hne
        rw [hnm] at hlayer
        omega
      rw [layoutLayer_lookup_other hother, layoutLayer_lookup_other hother]
      exact ih m hm hmlt

/-! ## Claim theorems: layout -/

theorem yOf_zero (cfg : Cfg) (H : ℚ) (L : Nat) : yOf cfg H 0 L = none := by
  unfold yOf jsDiv
  norm_num

theorem yOf_pos {cfg : Cfg} {H : ℚ} {maxL : Nat} (L : Nat) (h : 0 < maxL) :
    yOf cfg H maxL L =
      some (cfg.layerPadding +
        ((L : ℚ) / (maxL : ℚ)) * (H - cfg.layerPadding * 2)) := by
  unfold yOf jsDiv
  rw [if_neg (Nat.cast_ne_zero.mpr (by omega))]
  rfl

/-- A single node, producing a one-layer graph. -/
def soloNode : Node := { id := "a" }

/-- Counterexample to C7 as stated: for the one-node graph (maxLayer 0)
in a 100×100 viewport the pass writes x = 50 but y = `0 / 0` — the
division by `maxLayer` is not guarded, so y is `NaN` (`none`), not a
well-defined finite coordinate. -/
theorem layout_single_layer_y_nan_cex :
    alookup "a" (layoutPass {} [soloNode] 100 100 []) = some (50, none) := by
  have h := layoutUpTo_place {} [soloNode] 100 100 []
    (by unfold NodupIds; decide) 0 0 (by decide)
  refine h.trans ?_
  rw [show groupOf [soloNode] 0 = [soloNode] from by decide,
    show maxLayerOf [soloNode] = 0 from rfl, yOf_zero]
  norm_num [startXOf]

/-- C7 amended: `render` does not guard the division by `maxLayer`.  When
`maxLayer = 0` every node is placed with a finite x but a `NaN` y
(`none`); when `maxLayer > 0` every node's y is the linear interpolation
`layerPadding + (layer / maxLayer) * (H − 2·layerPadding)`. -/
theorem layout_y_amended (cfg : Cfg) (nodes : List Node) (W H : ℚ)
    (xs0 : PosMap) (hnd : NodupIds nodes) :
    (maxLayerOf nodes = 0 → ∀ n ∈ nodes, ∃ xv : ℚ,
      alookup n.id (layoutPass cfg nodes W H xs0) = some (xv, none)) ∧
    (0 < maxLayerOf nodes → ∀ n ∈ nodes, ∃ xv : ℚ,
      alookup n.id (layoutPass cfg nodes W H xs0) =
        some (xv, some (cfg.layerPadding +
          ((n.layer : ℚ) / (maxLayerOf nodes : ℚ)) *
            (H - cfg.layerPadding * 2)))) := by
  constructor
  · intro h0 n hn
    obtain ⟨j, hj⟩ := layoutPass_lookup_node cfg nodes W H xs0 hnd hn
    rw [h0, yOf_zero] at hj
    exact ⟨_, hj⟩
  · intro hpos n hn
    obtain ⟨j, hj⟩ := layoutPass_lookup_node cfg nodes W H xs0 hnd hn
    rw [yOf_pos n.layer hpos] at hj
    exact ⟨_, hj⟩

/-- Witness for the amended C7: the one-node graph satisfies the
hypotheses and its y coordinate comes out `NaN` (`none`). -/
theorem layout_y_amended_witness :
    (alookup "a" (layoutPass {} [soloNode] 100 100 [])).map Prod.snd =
      some none := by
  obtain ⟨xv, hx⟩ := (layout_y_amended {} [soloNode] 100 100 []
    (by unfold NodupIds; decide)).1 (by decide) soloNode (by decide)
  have hid : soloNode.id = "a" := rfl
  rw [hid] at hx
  rw [hx]
  rfl

/-- The spec §8 scenario with the layers the engine computes for it
(`a`: 0, `b`: 1, `c`: 2), as the layout pass consumes it. -/
def slA : Node := { id := "a", layer := 0 }

def slB : Node := { id := "b", prereqs := ["a"], layer := 1 }

def slC : Node := { id := "c", prereqs := ["a", "b"], layer := 2 }

def scNodesL : List Node := [slA, slB, slC]

/-- C8: after a layout pass, layer 0 keeps input order; each layer L > 0
is ordered by the barycenter heuristic — the stable ascending sort of the
input-order group by the mean final x of the prereqs (ties keep input
order, stated as equal-key filters being preserved); and the i-th node of
the layer's order gets
x = (W − count·nodeWidth − (count−1)·nodeGap)/2 + nodeWidth/2 +
i·(nodeWidth + nodeGap). -/
theorem layout_positions_and_order (cfg : Cfg) (nodes : List Node) (W H : ℚ)
    (xs0 : PosMap) (hnd : NodupIds nodes) (hcl : ClosedGraph nodes)
    (hsl : StrictLayers nodes) :
    ∀ L, L ≤ maxLayerOf nodes →
      ∃ ord : List Node,
        (L = 0 → ord = groupOf nodes 0) ∧
        (0 < L →
          ord.Perm (groupOf nodes L) ∧
          ord.Pairwise (fun a b =>
            bary (layoutPass cfg nodes W H xs0) a ≤
              bary (layoutPass cfg nodes W H xs0) b) ∧
          ∀ k : ℚ,
            ord.filter (fun n => bary (layoutPass cfg nodes W H xs0) n = k) =
              (groupOf nodes L).filter
                (fun n => bary (layoutPass cfg nodes W H xs0) n = k)) ∧
        ∀ j (hj : j < ord.length),
          alookup ((ord.get ⟨j, hj⟩).id) (layoutPass cfg nodes W H xs0) =
            some (startXOf cfg W ((groupOf nodes L).length : ℚ) +
              (j : ℚ) * (cfg.nodeWidth + cfg.nodeGap),
              yOf cfg H (maxLayerOf nodes) L) := by
  intro L hL
  have hfinal : layoutPass cfg nodes W H xs0 =
      layoutUpTo cfg nodes W H xs0 (maxLayerOf nodes + 1) := rfl
  have hord := inOrder_mid_eq_final cfg nodes W H xs0 hnd hcl hsl L
  refine ⟨inOrder nodes (layoutUpTo cfg nodes W H xs0 L) L, ?_, ?_, ?_⟩
  · rintro rfl
    unfold inOrder
    rw [if_neg (by omega)]
  · intro hLpos
    rw [hord, hfinal]
    unfold inOrder
    rw [if_pos hLpos]
    refine ⟨sortB_perm _ _, sortB_sorted _ _, fun k => sortB_filter _ k _⟩
  · intro j hj
    have hget := layoutUpTo_place cfg nodes W H xs0 hnd L j hj
    have hmem : (inOrder nodes (layoutUpTo cfg nodes W H xs0 L) L).get ⟨j, hj⟩ ∈
        inOrder nodes (layoutUpTo cfg nodes W H xs0 L) L := List.get_mem _ _ _
    obtain ⟨hgn, hgl⟩ := mem_groupOf.mp (mem_inOrder.mp hmem)
    rw [hfinal, layoutUpTo_persist cfg nodes W H xs0 hnd hgn (L + 1) (by omega)
      (maxLayerOf nodes + 1) (by omega)]
    exact hget

/-- Witness for C8 at the spec §8 scenario in a 400×300 viewport: layer 1
holds exactly `b`, placed at x = 200, y = 150. -/
theorem layout_positions_and_order_witness :
    alookup "b" (layoutPass {} scNodesL 400 300 []) = some (200, some 150) := by
  obtain ⟨ord, h0, hpos, hplace⟩ := layout_positions_and_order {} scNodesL 400 300 []
    (by unfold NodupIds; decide) (by unfold ClosedGraph; decide)
    (by unfold StrictLayers; decide) 1 (by decide)
  obtain ⟨hperm, -, -⟩ := hpos (by decide)
  have hgrp : groupOf scNodesL 1 = [slB] := by decide
  rw [hgrp] at hperm
  have hord : ord = [slB] := List.perm_singleton.mp hperm
  rw [hord, hgrp] at hplace
  have h2 := hplace 0 (by decide)
  refine h2.trans ?_
  rw [show maxLayerOf scNodesL = 2 from rfl, yOf_pos 1 (by norm_num)]
  norm_num [startXOf]

/-- C9: for identical graph, viewport and configuration, two consecutive
layout passes assign identical positions to every node — the second
pass, whose barycenter sort reads the x values the first pass wrote,
reproduces the same per-layer orders and positions. -/
theorem layout_pass_deterministic (cfg : Cfg) (nodes : List Node) (W H : ℚ)
    (xs0 : PosMap) (hnd : NodupIds nodes) (hcl : ClosedGraph nodes)
    (hsl : StrictLayers nodes) :
    ∀ n ∈ nodes,
      alookup n.id (layoutPass cfg nodes W H (layoutPass cfg nodes W H xs0)) =
        alookup n.id (layoutPass cfg nodes W H xs0) := by
  intro n hn
  unfold layoutPass
  exact layoutUpTo_indep hnd hcl hsl _ _ (maxLayerOf nodes + 1) n hn
    (Nat.lt_succ_of_le (maxLayerOf_ge hn))

/-- Witness for C9 at the spec §8 scenario: the node `b` has the same
position after one and after two passes. -/
theorem layout_pass_deterministic_witness :
    alookup "b" (layoutPass {} scNodesL 400 300 (layoutPass {} scNodesL 400 300 [])) =
      alookup "b" (layoutPass {} scNodesL 400 300 []) := by
  have h := layout_pass_deterministic {} scNodesL 400 300 []
    (by unfold NodupIds; decide) (by unfold ClosedGraph; decide)
    (by unfold StrictLayers; decide) slB (by decide)
  have hid : slB.id = "b" := rfl
  rwa [hid] at h

end Techtree
